import Mathlib

/-!
Verification of the monthly accounting engine of the budget app
(`src/App.tsx` and the unnamed richer variant, which share all core logic).

Embedding conventions:
* Calendar dates are embedded as day numbers (days since the proleptic
  Gregorian epoch, year 0, as an integer).  A JS `Date` constructed as
  `new Date(y, m0, D)` denotes the day numbered
  `firstOfMonth (y, m0+1) + (D - 1)`, where month overflow in `m0` rolls
  into the year; this is exactly JS date normalization at day granularity.
  `end.setMonth(end.getMonth() + 1)` therefore rebuilds the date with the
  month index incremented, and `end.setDate(end.getDate() - 1)` moves one
  day back.  `setHours(23,59,59,999)` is invisible at day granularity and
  all transaction dates parsed by `parseDate` are at the start of a day.
* JS numbers are embedded as exact arithmetic (`ℕ`, `ℤ`, `ℚ`); all amounts
  in the app are integers.  `Math.round x` is `⌊x + 1/2⌋`.
* `uid()` (a random fresh identifier) is embedded as a counter `nextId`
  carried in the state; identifiers are `ℕ`.
* JS string comparison (`<` on `"YYYY-MM"` keys, and the default
  comparator of `Array.sort()`) is lexicographic on code units, embedded
  as the lexicographic order on `String.toList`.  `.sort()` is embedded
  as an insertion sort by that order; on duplicate-free key lists every
  correct sort yields this unique sorted permutation.
* A JS `Map` and the `budgets` object are embedded as association lists
  in key insertion order; `set` / the computed-key spread update the
  existing entry in place or append a new one.
-/

namespace BudgetApp

/-! ### Calendar arithmetic (`startEndOfMonth`, App.tsx lines 86-97) -/

/-- Gregorian leap-year rule, as implemented by the JS `Date` object
(used through `new Date(y, m, 0).getDate()`). -/
def isLeap (y : ℕ) : Bool :=
  (y % 4 == 0 && y % 100 != 0) || y % 400 == 0

/-- Number of days of month `m` (1-12) of year `y`; the value of
`new Date(y, m, 0).getDate()` (also the helper `daysInMonth` of the
unnamed variant). -/
def daysInMonth (y m : ℕ) : ℕ :=
  if m == 2 then (if isLeap y then 29 else 28)
  else if m == 4 || m == 6 || m == 9 || m == 11 then 30
  else 31

/-- Number of days of year `y`. -/
def daysInYear (y : ℕ) : ℕ := if isLeap y then 366 else 365

/-- Days from the epoch to the first day of year `y`. -/
def daysBeforeYear : ℕ → ℕ
  | 0 => 0
  | y + 1 => daysBeforeYear y + daysInYear y

/-- Days from the first of January to the first of month `m` (1-12) of
year `y`. -/
def daysBeforeMonth (y : ℕ) : ℕ → ℕ
  | 0 => 0
  | 1 => 0
  | m + 2 => daysBeforeMonth y (m + 1) + daysInMonth y (m + 1)

/-- Day number of the first day of month `m` of year `y`; months beyond
12 roll over into later years (JS month normalization). -/
def rdFirst (y m : ℕ) : ℕ :=
  daysBeforeYear (y + (m - 1) / 12) + daysBeforeMonth (y + (m - 1) / 12) ((m - 1) % 12 + 1)

/-- Day number of `new Date(y, m - 1, D)` (1-based month `m`); `D` may
overflow or underflow the month, exactly as in JS. -/
def mkDate (y m : ℕ) (D : ℤ) : ℤ := (rdFirst y m : ℤ) + D - 1

/-- `startEndOfMonth(yearMonth, startDay)` (App.tsx lines 86-97), after
parsing `yearMonth` as the pair `(y, m)`.  Line by line:
`lastDay = new Date(y, m, 0).getDate()`; `startD = min(startDay, lastDay)`;
`start = new Date(y, m-1, startD)`; `end` starts equal to `start`, then
`end.setMonth(end.getMonth() + 1)` (same day-of-month, next month index,
normalized), then `end.setDate(end.getDate() - 1)` (one day back). -/
def startEndOfMonth (y m startDay : ℕ) : ℤ × ℤ :=
  let lastDay := daysInMonth y m
  let startD := min startDay lastDay
  let start := mkDate y m startD
  let endM := mkDate y (m + 1) startD
  (start, endM - 1)

/-- The "following month" `(Y, M+1)` of the claims: month 12 of year `Y`
is followed by month 1 of year `Y+1`. -/
def nextYM (y m : ℕ) : ℕ × ℕ := if m == 12 then (y + 1, 1) else (y, m + 1)

/-! ### Data model (App.tsx lines 24-51) -/

/-- `TopCategory = "소비" | "저축" | "기타"` (Spending / Savings / Other). -/
inductive TopCategory
  | spending
  | saving
  | other
deriving DecidableEq

/-- A transaction (`Tx`).  `date` is the day number denoted by the
`YYYY-MM-DD` string (via `parseDate`); `memo` is optional. -/
structure Tx where
  id : ℕ
  date : ℤ
  top : TopCategory
  item : String
  amount : ℕ
  memo : Option String := none
deriving DecidableEq

/-- A budget item. -/
structure BudgetItem where
  id : ℕ
  top : TopCategory
  name : String
  plan : ℕ
deriving DecidableEq

instance : Inhabited BudgetItem := ⟨⟨0, TopCategory.spending, "", 0⟩⟩

/-- App settings. -/
structure Settings where
  startDay : ℕ
  startDayTakesEffectNextMonth : Bool
deriving DecidableEq

/-- The whole persisted state.  `budgets` is the JS object keyed by
`YYYY-MM` strings, embedded as an association list in key insertion
order; `nextId` is the fresh-identifier counter embedding `uid()`. -/
structure AppState where
  budgets : List (String × List BudgetItem)
  txs : List Tx
  settings : Settings
  nextId : ℕ
deriving DecidableEq

/-! ### Execution rate (`chartData`, App.tsx lines 256-271) -/

/-- JS `Math.round`: round half up, `⌊x + 1/2⌋`. -/
def jsRound (x : ℚ) : ℤ := ⌊x + 1 / 2⌋

/-- The reported execution rate of one chart row:
`b.plan > 0 ? Math.min(100, Math.round((actual / b.plan) * 100)) : 0`. -/
def rateOf (actual plan : ℕ) : ℤ :=
  if 0 < plan then min 100 (jsRound ((actual : ℚ) / (plan : ℚ) * 100)) else 0

/-- The over-budget flag of a budget row: `actual > plan`
(`over` in `BudgetView`, and the spec's `overBudget`). -/
def overOf (actual plan : ℕ) : Bool := decide (plan < actual)

/-! ### Aggregation (App.tsx lines 227-281 and `BudgetView` lines 597-609) -/

/-- `Map.get` on a string-keyed JS `Map`, embedded as an association
list in key insertion order. -/
def mapGetS (m : List (String × ℕ)) (k : String) : Option ℕ :=
  (m.find? (fun p => p.1 == k)).map Prod.snd

/-- `Map.set` on a string-keyed JS `Map`: an existing key keeps its
position and gets the new value, a new key is appended. -/
def mapSetS : List (String × ℕ) → String → ℕ → List (String × ℕ)
  | [], k, v => [(k, v)]
  | p :: rest, k, v => if p.1 == k then (k, v) :: rest else p :: mapSetS rest k v

/-- Same maps, keyed by identifiers. -/
def mapGetN (m : List (ℕ × ℕ)) (k : ℕ) : Option ℕ :=
  (m.find? (fun p => p.1 == k)).map Prod.snd

def mapSetN : List (ℕ × ℕ) → ℕ → ℕ → List (ℕ × ℕ)
  | [], k, v => [(k, v)]
  | p :: rest, k, v => if p.1 == k then (k, v) :: rest else p :: mapSetN rest k v

/-- `monthTxs` (App.tsx lines 239-246): the transactions whose date lies
in the resolved month range, endpoints inclusive. -/
def monthTxs (txs : List Tx) (range : ℤ × ℤ) : List Tx :=
  txs.filter (fun t => decide (range.1 ≤ t.date) && decide (t.date ≤ range.2))

/-- `actualByItem` (App.tsx lines 248-254): the per-item sums of the
Spending (소비) transactions of the month. -/
def actualByItem (mtxs : List Tx) : List (String × ℕ) :=
  (mtxs.filter (fun t => t.top == TopCategory.spending)).foldl
    (fun m tx => mapSetS m tx.item ((mapGetS m tx.item).getD 0 + tx.amount)) []

/-- `consumptionItems` (App.tsx lines 231-234): the Spending budget
items of the month. -/
def consumptionItems (monthBudgets : List BudgetItem) : List BudgetItem :=
  monthBudgets.filter (fun b => b.top == TopCategory.spending)

/-- One row of `chartData`. -/
structure ChartRow where
  name : String
  rate : ℤ
  actual : ℕ
  plan : ℕ
  color : String
deriving DecidableEq

/-- The colour palette `COLORS`. -/
def COLORS : List String :=
  ["#60a5fa", "#34d399", "#f472b6", "#fbbf24", "#a78bfa",
   "#fb7185", "#22d3ee", "#c084fc", "#f59e0b", "#10b981"]

/-- `consumptionItems.map((b, idx) => …)` of `chartData`
(App.tsx lines 256-271), as a recursion carrying the index. -/
def chartDataFrom (mtxs : List Tx) : ℕ → List BudgetItem → List ChartRow
  | _, [] => []
  | idx, b :: rest =>
    let actual := (mapGetS (actualByItem mtxs) b.name).getD 0
    { name := b.name, rate := rateOf actual b.plan, actual := actual, plan := b.plan,
      color := COLORS.getD (idx % COLORS.length) "" } :: chartDataFrom mtxs (idx + 1) rest

def chartData (items : List BudgetItem) (mtxs : List Tx) : List ChartRow :=
  chartDataFrom mtxs 0 items

/-- `spentSum` (App.tsx lines 273-276). -/
def spentSum (rows : List ChartRow) : ℕ := rows.foldl (fun s d => s + d.actual) 0

/-- `planSum` (App.tsx lines 277-280). -/
def planSum (rows : List ChartRow) : ℕ := rows.foldl (fun s d => s + d.plan) 0

/-- `remainSum = Math.max(planSum - spentSum, 0)` (App.tsx line 281);
the subtraction is over JS numbers, hence over `ℤ`. -/
def remainSum (rows : List ChartRow) : ℤ :=
  max ((planSum rows : ℤ) - (spentSum rows : ℤ)) 0

/-- `actualByBudgetId` of `BudgetView` (App.tsx lines 597-609, unnamed
variant lines 619-631): every item id starts at 0, then every month
transaction (the filter `t.top !== undefined` keeps them all, since
`top` is always defined) is added to the first budget item of the same
top category and name, if any. -/
def abbiStep (list : List BudgetItem) (m : List (ℕ × ℕ)) (tx : Tx) : List (ℕ × ℕ) :=
  match list.find? (fun b => b.top == tx.top && b.name == tx.item) with
  | some b => mapSetN m b.id ((mapGetN m b.id).getD 0 + tx.amount)
  | none => m

def actualByBudgetId (list : List BudgetItem) (mtxs : List Tx) : List (ℕ × ℕ) :=
  (mtxs.filter (fun _ => true)).foldl (abbiStep list)
    (list.foldl (fun m b => mapSetN m b.id 0) [])

/-- The first budget item matched by a transaction in `actualByBudgetId`,
if any (the `list.find(...)` of the source). -/
def abbiHit (list : List BudgetItem) (tx : Tx) : Option ℕ :=
  (list.find? (fun b => b.top == tx.top && b.name == tx.item)).map BudgetItem.id

/-! ### Budget store operations (App.tsx lines 198-354) -/

/-- Key lookup in the `budgets` object (`state.budgets[month]`). -/
def lookupB (budgets : List (String × List BudgetItem)) (k : String) : Option (List BudgetItem) :=
  (budgets.find? (fun p => p.1 == k)).map Prod.snd

/-- The computed-key spread `{...budgets, [k]: v}`: replaces the value of
an existing key in place, or appends a new key. -/
def setB : List (String × List BudgetItem) → String → List BudgetItem → List (String × List BudgetItem)
  | [], k, v => [(k, v)]
  | p :: rest, k, v => if p.1 == k then (k, v) :: rest else p :: setB rest k v

/-- JS string `<`: lexicographic comparison on code units. -/
def jsLt (a b : String) : Bool := decide (a.toList < b.toList)

/-- `Object.keys(budgets).sort()` (default lexicographic comparator). -/
def sortKeys (keys : List String) : List String :=
  keys.insertionSort (fun a b => a.toList ≤ b.toList)

instance : IsTotal String (fun a b => a.toList ≤ b.toList) :=
  ⟨fun a b => le_total a.toList b.toList⟩

instance : IsTrans String (fun a b => a.toList ≤ b.toList) :=
  ⟨fun _ _ _ h1 h2 => le_trans h1 h2⟩

/-- `keys.filter((k) => k < month).pop()` over the sorted keys: the
source of the propagation effect (App.tsx lines 210-211). -/
def prevKeyOf (keys : List String) (month : String) : Option String :=
  ((sortKeys keys).filter (fun k => jsLt k month)).getLast?

/-- The copy `(state.budgets[prevKey] || []).map((b) => ({id: uid(), …}))`
of the propagation effect, with `uid()` drawing consecutive fresh
identifiers from the counter. -/
def copyFresh : List BudgetItem → ℕ → List BudgetItem
  | [], _ => []
  | b :: rest, n => ⟨n, b.top, b.name, b.plan⟩ :: copyFresh rest (n + 1)

/-- The month-change propagation effect (App.tsx lines 207-225): when the
selected month has no item list or an empty one, the nearest preceding
month with data (greatest key strictly below, by JS string comparison) is
copied into it with fresh identifiers; otherwise nothing happens. -/
def propagate (s : AppState) (month : String) : AppState :=
  let list := (lookupB s.budgets month).getD []
  if list.isEmpty then
    match prevKeyOf (s.budgets.map Prod.fst) month with
    | some prevKey =>
      let src := (lookupB s.budgets prevKey).getD []
      let copied := copyFresh src s.nextId
      { s with budgets := setB s.budgets month copied, nextId := s.nextId + src.length }
    | none => s
  else s

/-- The argument of `upsertBudgetItem`, a `Partial<BudgetItem>`: absent
fields are `none`.  (`if (b.id)` in the source is a truthiness test; item
identifiers are never the empty string, so presence of the field is the
faithful reading.) -/
structure ItemPatch where
  id : Option ℕ := none
  top : Option TopCategory := none
  name : Option String := none
  plan : Option ℕ := none
deriving DecidableEq

/-- JS `b.name || "새 항목"`: the empty string is falsy. -/
def jsOrStr (o : Option String) (dflt : String) : String :=
  match o with
  | some s => if s == "" then dflt else s
  | none => dflt

/-- The spread `{...list[i], ...b}`: fields present in `b` override. -/
def mergeItem (old : BudgetItem) (b : ItemPatch) : BudgetItem :=
  { id := b.id.getD old.id, top := b.top.getD old.top,
    name := b.name.getD old.name, plan := b.plan.getD old.plan }

/-- `upsertBudgetItem(b)` (App.tsx lines 329-345) for the currently
selected `month`: with an id present, the matching item (if any) is
overwritten field-wise in place and nothing happens when no item
matches; without an id a fresh item is appended with defaults
`top = 소비`, `name = "새 항목"`, `plan = 0`. -/
def upsertBudgetItem (s : AppState) (month : String) (b : ItemPatch) : AppState :=
  let list := (lookupB s.budgets month).getD []
  match b.id with
  | some i =>
    let list2 :=
      match list.findIdx? (fun x => x.id == i) with
      | some j => list.set j (mergeItem (list.getD j default) b)
      | none => list
    { s with budgets := setB s.budgets month list2 }
  | none =>
    let item : BudgetItem :=
      { id := s.nextId, top := b.top.getD TopCategory.spending,
        name := jsOrStr b.name "새 항목", plan := b.plan.getD 0 }
    { s with budgets := setB s.budgets month (list ++ [item]), nextId := s.nextId + 1 }

/-- `deleteBudgetItem(id)` (App.tsx lines 346-354). -/
def deleteBudgetItem (s : AppState) (month : String) (i : ℕ) : AppState :=
  { s with
    budgets := setB s.budgets month (((lookupB s.budgets month).getD []).filter (fun b => b.id != i)) }

/-- `addTx(tx)` (App.tsx lines 305-307): prepends with a fresh id. -/
def addTx (s : AppState) (tx : Tx) : AppState :=
  { s with txs := { tx with id := s.nextId } :: s.txs, nextId := s.nextId + 1 }

/-- `removeTx(id)` (App.tsx lines 308-310). -/
def removeTx (s : AppState) (i : ℕ) : AppState :=
  { s with txs := s.txs.filter (fun t => t.id != i) }

/-- The save handler of `SettingsView` (App.tsx lines 914-929): stores
the chosen day unconditionally (no validation is performed). -/
def saveStartDay (s : AppState) (day : ℕ) : AppState :=
  { s with settings := { startDay := day, startDayTakesEffectNextMonth := true } }

/-- The option list of the start-day select:
`Array.from({length: 31}, (_, i) => i + 1)`. -/
def startDayOptions : List ℕ := (List.range 31).map (fun i => i + 1)

/-- Well-formed identifiers: every stored budget item id is below the
fresh-identifier counter. -/
def WFids (s : AppState) : Prop := ∀ p ∈ s.budgets, ∀ b ∈ p.2, b.id < s.nextId

/-! ### Concrete instances used by counterexamples and witnesses -/

/-- A Savings budget item (저축/적금). -/
def savItem : BudgetItem := ⟨0, TopCategory.saving, "적금", 100000⟩

/-- A Savings transaction with the same item name, dated 2025-07-05. -/
def savTx : Tx := ⟨1, mkDate 2025 7 5, TopCategory.saving, "적금", 50000, none⟩

/-- A small concrete state: one stored month with one Spending item. -/
def demoItem : BudgetItem := ⟨0, TopCategory.spending, "식비", 300000⟩

def demoState : AppState := ⟨[("2025-01", [demoItem])], [], ⟨1, true⟩, 1⟩

/-- A partial item whose id matches nothing in `demoState`. -/
def ghostPatch : ItemPatch := ⟨some 99, none, some "간식", none⟩

/-- A partial item without an id (the add form of `BudgetView`). -/
def addPatch : ItemPatch := ⟨none, some TopCategory.saving, some "저축보험", some 50000⟩

/-! ## Theorems -/

/-! ### Calendar facts -/

theorem daysInMonth_ge_28 (y m : ℕ) : 28 ≤ daysInMonth y m := by
  unfold daysInMonth
  split
  · split <;> omega
  · split <;> omega

theorem daysBeforeMonth_12 (y : ℕ) :
    daysBeforeMonth y 12 + daysInMonth y 12 = daysInYear y := by
  cases h : isLeap y <;>
    simp [show (12 : ℕ) = 10 + 2 from rfl, daysBeforeMonth, daysInMonth, daysInYear, h]

theorem rdFirst_succ (y m : ℕ) (h1 : 1 ≤ m) (h2 : m ≤ 12) :
    rdFirst y (m + 1) = rdFirst y m + daysInMonth y m := by
  interval_cases m <;>
    simp [rdFirst, daysBeforeMonth] <;>
    cases h : isLeap y <;>
    simp [daysBeforeYear, daysInYear, daysInMonth, h]

theorem rdFirst_nextYM (y m : ℕ) (h1 : 1 ≤ m) (h2 : m ≤ 12) :
    rdFirst (nextYM y m).1 (nextYM y m).2 = rdFirst y (m + 1) := by
  interval_cases m <;> simp [nextYM, rdFirst]

/-- C1 (amended).  The end of `startEndOfMonth (Y, M, d)` is one day
before the start of the following month's period exactly when the
clamped start days of the two months agree, that is when
`min d (daysInMonth Y M) = min d (daysInMonth Y' M')` for the following
month `(Y', M')`; in particular continuity holds for every cycle start
day `d ≤ 28`, across every month boundary including December to January
and leap-February. -/
theorem startEndOfMonth_continuity (y m d : ℕ) (h1 : 1 ≤ m) (h2 : m ≤ 12) (hd : 1 ≤ d) :
    ((startEndOfMonth y m d).2 + 1 = (startEndOfMonth (nextYM y m).1 (nextYM y m).2 d).1 ↔
      min d (daysInMonth y m) = min d (daysInMonth (nextYM y m).1 (nextYM y m).2)) ∧
    (d ≤ 28 →
      (startEndOfMonth y m d).2 + 1 = (startEndOfMonth (nextYM y m).1 (nextYM y m).2 d).1) := by
  have hnext := rdFirst_nextYM y m h1 h2
  have h28 := daysInMonth_ge_28 y m
  have h28' := daysInMonth_ge_28 (nextYM y m).1 (nextYM y m).2
  constructor
  · simp only [startEndOfMonth, mkDate, hnext]
    omega
  · intro hle
    have hm1 : min d (daysInMonth y m) = d := by omega
    have hm2 : min d (daysInMonth (nextYM y m).1 (nextYM y m).2) = d := by omega
    simp only [startEndOfMonth, mkDate, hnext, hm1, hm2]
    omega

/-- C1 counterexample: with cycle start day 31, the period of 2025-03
ends on the same day (April 30) on which the period of 2025-04 starts,
so the end is not one day before the next start. -/
theorem startEndOfMonth_continuity_cex :
    ¬ ((startEndOfMonth 2025 3 31).2 + 1 = (startEndOfMonth 2025 4 31).1) := by
  have h : daysInMonth 2025 3 = 31 := by decide
  have h4 : daysInMonth 2025 4 = 30 := by decide
  simp only [startEndOfMonth, mkDate, h, h4]
  norm_num

/-- C5.  For a valid month and any cycle start day `d` in 1..31, the
resolved period has `start ≤ end`, the start is the day of month (Y, M)
numbered `min d (daysInMonth Y M)` (the clamped start day), and the
period covers exactly `daysInMonth Y M` days. -/
theorem startEndOfMonth_clamp (y m d : ℕ) (h1 : 1 ≤ m) (h2 : m ≤ 12)
    (hd : 1 ≤ d) (hd31 : d ≤ 31) :
    (startEndOfMonth y m d).1 = mkDate y m (min d (daysInMonth y m)) ∧
    1 ≤ min d (daysInMonth y m) ∧ min d (daysInMonth y m) ≤ daysInMonth y m ∧
    (startEndOfMonth y m d).1 ≤ (startEndOfMonth y m d).2 ∧
    (startEndOfMonth y m d).2 - (startEndOfMonth y m d).1 = daysInMonth y m - 1 := by
  have hsucc := rdFirst_succ y m h1 h2
  have h28 := daysInMonth_ge_28 y m
  refine ⟨by simp [startEndOfMonth], by omega, by omega, ?_, ?_⟩ <;>
    simp only [startEndOfMonth, mkDate, hsucc] <;> push_cast <;> omega

/-- Witness for C1 at `(Y, M, d) = (2024, 2, 15)` (leap February). -/
theorem startEndOfMonth_continuity_wit :
    (startEndOfMonth 2024 2 15).2 + 1 = (startEndOfMonth (nextYM 2024 2).1 (nextYM 2024 2).2 15).1 :=
  (startEndOfMonth_continuity 2024 2 15 (by decide) (by decide) (by decide)).2 (by decide)

/-- Witness for C5 at `(Y, M, d) = (2025, 4, 31)`. -/
theorem startEndOfMonth_clamp_wit :
    (startEndOfMonth 2025 4 31).1 = mkDate 2025 4 (min 31 (daysInMonth 2025 4)) ∧
    1 ≤ min 31 (daysInMonth 2025 4) ∧ min 31 (daysInMonth 2025 4) ≤ daysInMonth 2025 4 ∧
    (startEndOfMonth 2025 4 31).1 ≤ (startEndOfMonth 2025 4 31).2 ∧
    (startEndOfMonth 2025 4 31).2 - (startEndOfMonth 2025 4 31).1 = daysInMonth 2025 4 - 1 :=
  startEndOfMonth_clamp 2025 4 31 (by decide) (by decide) (by decide) (by decide)

/-! ### Execution rate -/

theorem jsRound_nonneg (x : ℚ) (hx : 0 ≤ x) : 0 ≤ jsRound x := by
  unfold jsRound
  rw [Int.le_floor]
  push_cast
  linarith

/-- C3.  For non-negative integer `actual` and `plan`, the reported rate
is `clamp (round-half-up (actual / plan * 100)) 0 100` when `plan > 0`
and `0` when `plan = 0`; it is always an integer in `[0, 100]` (also
when `actual > plan`); `actual = 333, plan = 1000` yields `33`; and
over-budget is the separate boolean `actual > plan`. -/
theorem rateOf_spec (actual plan : ℕ) :
    (0 < plan →
      rateOf actual plan = max 0 (min 100 (jsRound ((actual : ℚ) / (plan : ℚ) * 100)))) ∧
    (plan = 0 → rateOf actual plan = 0) ∧
    0 ≤ rateOf actual plan ∧ rateOf actual plan ≤ 100 ∧
    rateOf 333 1000 = 33 ∧
    (overOf actual plan = true ↔ actual > plan) := by
  have hr : ∀ a p : ℕ, 0 < p → 0 ≤ jsRound ((a : ℚ) / (p : ℚ) * 100) := by
    intro a p hp
    apply jsRound_nonneg
    positivity
  have h333 : rateOf 333 1000 = 33 := by
    unfold rateOf jsRound
    rw [if_pos (by norm_num : (0 : ℕ) < 1000)]
    have hq : ((333 : ℕ) : ℚ) / ((1000 : ℕ) : ℚ) * 100 + 1 / 2 =
        ((67600 : ℤ) : ℚ) / ((2000 : ℕ) : ℚ) := by norm_num
    rw [hq, Rat.floor_intCast_div_natCast]
    decide
  refine ⟨?_, ?_, ?_, ?_, h333, ?_⟩
  · intro hp
    have h0 := hr actual plan hp
    simp only [rateOf, if_pos hp]
    omega
  · intro hp
    simp [rateOf, hp]
  · by_cases hp : 0 < plan
    · have h0 := hr actual plan hp
      simp only [rateOf, if_pos hp]
      omega
    · simp [rateOf, hp]
  · by_cases hp : 0 < plan
    · simp only [rateOf, if_pos hp]
      omega
    · simp [rateOf, hp]
  · simp [overOf]

/-! ### Report totals -/

theorem foldl_add_map (f : ChartRow → ℕ) :
    ∀ (l : List ChartRow) (n : ℕ), l.foldl (fun s d => s + f d) n = n + (l.map f).sum := by
  intro l
  induction l with
  | nil => simp
  | cons d rest ih =>
    intro n
    rw [List.foldl_cons, ih]
    simp
    omega

theorem chartDataFrom_map_plan (mtxs : List Tx) :
    ∀ (idx : ℕ) (items : List BudgetItem),
      (chartDataFrom mtxs idx items).map ChartRow.plan = items.map BudgetItem.plan := by
  intro idx items
  induction items generalizing idx with
  | nil => simp [chartDataFrom]
  | cons b rest ih => simp [chartDataFrom, ih]

theorem chartDataFrom_map_actual (mtxs : List Tx) :
    ∀ (idx : ℕ) (items : List BudgetItem),
      (chartDataFrom mtxs idx items).map ChartRow.actual =
        items.map (fun b => (mapGetS (actualByItem mtxs) b.name).getD 0) := by
  intro idx items
  induction items generalizing idx with
  | nil => simp [chartDataFrom]
  | cons b rest ih => simp [chartDataFrom, ih]

/-- C9.  `planSum` is the sum of the plans of the Spending rows,
`spentSum` is the sum of their unclamped per-item actuals, and
`remainSum = max (planSum - spentSum) 0` is never negative: when
`spentSum` exceeds `planSum` it is `0`, not a negative balance. -/
theorem report_totals (mb : List BudgetItem) (mtxs : List Tx) :
    planSum (chartData (consumptionItems mb) mtxs) = ((consumptionItems mb).map BudgetItem.plan).sum ∧
    spentSum (chartData (consumptionItems mb) mtxs) =
      ((consumptionItems mb).map (fun b => (mapGetS (actualByItem mtxs) b.name).getD 0)).sum ∧
    remainSum (chartData (consumptionItems mb) mtxs) =
      max ((planSum (chartData (consumptionItems mb) mtxs) : ℤ) -
        (spentSum (chartData (consumptionItems mb) mtxs) : ℤ)) 0 ∧
    0 ≤ remainSum (chartData (consumptionItems mb) mtxs) ∧
    (planSum (chartData (consumptionItems mb) mtxs) < spentSum (chartData (consumptionItems mb) mtxs) →
      remainSum (chartData (consumptionItems mb) mtxs) = 0) := by
  refine ⟨?_, ?_, rfl, le_max_right _ _, ?_⟩
  · rw [planSum, foldl_add_map ChartRow.plan]
    unfold chartData
    rw [chartDataFrom_map_plan]
    simp
  · rw [spentSum, foldl_add_map ChartRow.actual]
    unfold chartData
    rw [chartDataFrom_map_actual]
    simp
  · intro h
    rw [remainSum]
    omega

/-! ### Category exclusion -/

theorem mapGetN_mapSetN_self (m : List (ℕ × ℕ)) (k v : ℕ) :
    mapGetN (mapSetN m k v) k = some v := by
  induction m with
  | nil => simp [mapSetN, mapGetN]
  | cons p rest ih =>
    by_cases h : p.1 = k
    · simp [mapSetN, mapGetN, h]
    · simp only [mapSetN, mapGetN] at ih ⊢
      simp [List.find?_cons, h, ih]

theorem mapGetN_mapSetN_ne (m : List (ℕ × ℕ)) (k kk v : ℕ) (h : kk ≠ k) :
    mapGetN (mapSetN m k v) kk = mapGetN m kk := by
  induction m with
  | nil =>
    have hkk : (k == kk) = false := by simp [Ne.symm h]
    simp [mapSetN, mapGetN, List.find?_cons, hkk]
  | cons p rest ih =>
    by_cases hp : p.1 = k
    · have hcond : (p.1 == k) = true := by simp [hp]
      have hk2 : (k == kk) = false := by simp [Ne.symm h]
      have hp2 : (p.1 == kk) = false := by
        rw [hp]
        exact hk2
      simp [mapSetN, mapGetN, hcond, List.find?_cons, hk2, hp2]
    · have hcond : (p.1 == k) = false := by simp [hp]
      by_cases hq : p.1 = kk
      · have hq2 : (p.1 == kk) = true := by simp [hq]
        simp [mapSetN, mapGetN, hcond, List.find?_cons, hq2]
      · have hq2 : (p.1 == kk) = false := by simp [hq]
        simp only [mapSetN, mapGetN] at ih ⊢
        simp [hcond, List.find?_cons, hq2, ih]

theorem abbi_fold_get (list : List BudgetItem) (k : ℕ) :
    ∀ (mtxs : List Tx) (m : List (ℕ × ℕ)),
      (mapGetN (mtxs.foldl (abbiStep list) m) k).getD 0 =
      (mapGetN m k).getD 0 +
        ((mtxs.filter (fun tx => abbiHit list tx == some k)).map Tx.amount).sum := by
  intro mtxs
  induction mtxs with
  | nil => simp
  | cons tx rest ih =>
    intro m
    rw [List.foldl_cons, ih]
    rcases hfind : list.find? (fun b => b.top == tx.top && b.name == tx.item) with _ | b
    · simp [abbiStep, abbiHit, hfind, List.filter_cons]
    · by_cases hk : b.id = k
      · subst hk
        have hhit : (abbiHit list tx == some b.id) = true := by simp [abbiHit, hfind]
        rw [List.filter_cons]
        simp only [hhit, if_true, List.map_cons, List.sum_cons]
        simp only [abbiStep, hfind]
        rw [mapGetN_mapSetN_self]
        simp
        omega
      · have hne : (abbiHit list tx == some k) = false := by
          simp [abbiHit, hfind, hk]
        rw [List.filter_cons]
        simp only [hne, Bool.false_eq_true, if_false]
        simp only [abbiStep, hfind]
        rw [mapGetN_mapSetN_ne _ _ _ _ (Ne.symm hk)]

/-- C2 (amended).  A transaction whose top category is Savings (저축) or
Other (기타) contributes to no aggregate of the consumption report: it
leaves `actualByItem`, every `chartData` row, `spentSum`, `planSum` and
`remainSum` unchanged, and in the budget view's per-item actual column
(`actualByBudgetId`) it never contributes to the actual of any Spending
budget item.  (It can, however, contribute to the budget-view actual of
a Savings/Other item with matching name; see the counterexample.) -/
theorem category_exclusion (items : List BudgetItem) (mtxs : List Tx) (tx : Tx)
    (htop : tx.top ≠ TopCategory.spending)
    (hids : (items.map BudgetItem.id).Nodup) :
    actualByItem (tx :: mtxs) = actualByItem mtxs ∧
    chartData items (tx :: mtxs) = chartData items mtxs ∧
    spentSum (chartData items (tx :: mtxs)) = spentSum (chartData items mtxs) ∧
    planSum (chartData items (tx :: mtxs)) = planSum (chartData items mtxs) ∧
    remainSum (chartData items (tx :: mtxs)) = remainSum (chartData items mtxs) ∧
    (∀ b ∈ items, b.top = TopCategory.spending →
      (mapGetN (actualByBudgetId items (tx :: mtxs)) b.id).getD 0 =
      (mapGetN (actualByBudgetId items mtxs) b.id).getD 0) := by
  have htopb : (tx.top == TopCategory.spending) = false := beq_eq_false_iff_ne.mpr htop
  have h1 : actualByItem (tx :: mtxs) = actualByItem mtxs := by
    simp [actualByItem, List.filter_cons, htopb]
  have hcongr : ∀ (idx : ℕ) (its : List BudgetItem),
      chartDataFrom (tx :: mtxs) idx its = chartDataFrom mtxs idx its := by
    intro idx its
    induction its generalizing idx with
    | nil => simp [chartDataFrom]
    | cons b rest ih => simp [chartDataFrom, h1, ih]
  have h2 : chartData items (tx :: mtxs) = chartData items mtxs := hcongr 0 items
  refine ⟨h1, h2, by rw [h2], by rw [h2], by rw [h2], ?_⟩
  intro b hb hbtop
  have hfil : (tx :: mtxs).filter (fun _ => true) = tx :: mtxs.filter (fun _ => true) := by
    simp
  unfold actualByBudgetId
  rw [hfil, List.foldl_cons, abbi_fold_get, abbi_fold_get]
  have hstep : (mapGetN (abbiStep items (items.foldl (fun m b => mapSetN m b.id 0) []) tx) b.id).getD 0 =
      (mapGetN (items.foldl (fun m b => mapSetN m b.id 0) []) b.id).getD 0 := by
    rcases hfind : items.find? (fun x => x.top == tx.top && x.name == tx.item) with _ | b2
    · simp [abbiStep, hfind]
    · have hprop := List.find?_some hfind
      have hmem := List.mem_of_find?_eq_some hfind
      rw [Bool.and_eq_true, beq_iff_eq] at hprop
      have hne : b2.id ≠ b.id := by
        intro hidEq
        have hbb : b2 = b := List.inj_on_of_nodup_map hids hmem hb hidEq
        rw [hbb] at hprop
        exact htop (hprop.1.symm.trans hbtop)
      simp only [abbiStep, hfind]
      rw [mapGetN_mapSetN_ne _ _ _ _ (Ne.symm hne)]
  rw [hstep]

/-! ### Propagation: the previous-key search -/

theorem sortKeys_sorted (keys : List String) :
    (sortKeys keys).Pairwise (fun a b => a.toList ≤ b.toList) :=
  List.sorted_insertionSort _ keys

theorem mem_sortKeys {x : String} {keys : List String} : x ∈ sortKeys keys ↔ x ∈ keys :=
  (List.perm_insertionSort _ keys).mem_iff

theorem mem_pool {x month : String} {keys : List String} :
    x ∈ (sortKeys keys).filter (fun k => jsLt k month) ↔
      x ∈ keys ∧ x.toList < month.toList := by
  rw [List.mem_filter, mem_sortKeys, jsLt]
  simp

theorem pool_sorted (keys : List String) (month : String) :
    ((sortKeys keys).filter (fun k => jsLt k month)).Pairwise
      (fun a b => a.toList ≤ b.toList) :=
  (sortKeys_sorted keys).filter _

theorem getLast?_max {L : List String} (hs : L.Pairwise (fun a b => a.toList ≤ b.toList))
    {m : String} (hm : L.getLast? = some m) : ∀ x ∈ L, x.toList ≤ m.toList := by
  induction L with
  | nil => simp at hm
  | cons a L ih =>
    cases L with
    | nil =>
      simp at hm
      subst hm
      intro x hx
      simp at hx
      subst hx
      exact le_refl _
    | cons b L2 =>
      rw [List.getLast?_cons_cons] at hm
      have hmem : m ∈ b :: L2 := List.mem_of_mem_getLast? hm
      intro x hx
      rcases List.mem_cons.mp hx with rfl | hx2
      · exact (List.pairwise_cons.mp hs).1 m hmem
      · exact ih (List.pairwise_cons.mp hs).2 hm x hx2

theorem prevKeyOf_some_char {keys : List String} {month k : String}
    (h : prevKeyOf keys month = some k) :
    k ∈ keys ∧ k.toList < month.toList ∧
      ∀ x ∈ keys, x.toList < month.toList → x.toList ≤ k.toList := by
  unfold prevKeyOf at h
  have hmem := List.mem_of_mem_getLast? h
  have hk := mem_pool.mp hmem
  refine ⟨hk.1, hk.2, ?_⟩
  intro x hx hlt
  exact getLast?_max (pool_sorted keys month) h x (mem_pool.mpr ⟨hx, hlt⟩)

theorem prevKeyOf_eq_some {keys : List String} {month k : String}
    (hmem : k ∈ keys) (hlt : k.toList < month.toList)
    (hmax : ∀ x ∈ keys, x.toList < month.toList → x.toList ≤ k.toList) :
    prevKeyOf keys month = some k := by
  have hkpool : k ∈ (sortKeys keys).filter (fun k2 => jsLt k2 month) :=
    mem_pool.mpr ⟨hmem, hlt⟩
  rcases hlast : ((sortKeys keys).filter (fun k2 => jsLt k2 month)).getLast? with _ | m
  · rw [List.getLast?_eq_none_iff] at hlast
    rw [hlast] at hkpool
    simp at hkpool
  · have hm := mem_pool.mp (List.mem_of_mem_getLast? hlast)
    have h1 : m.toList ≤ k.toList := hmax m hm.1 hm.2
    have h2 : k.toList ≤ m.toList := getLast?_max (pool_sorted keys month) hlast k hkpool
    have hkm : m = k := String.toList_inj.mp (le_antisymm h1 h2)
    rw [prevKeyOf, hlast, hkm]

theorem prevKeyOf_none_iff {keys : List String} {month : String} :
    prevKeyOf keys month = none ↔ ∀ x ∈ keys, ¬ x.toList < month.toList := by
  unfold prevKeyOf
  rw [List.getLast?_eq_none_iff, List.filter_eq_nil_iff]
  constructor
  · intro h x hx
    have := h x (mem_sortKeys.mpr hx)
    simpa [jsLt] using this
  · intro h x hx
    have := h x (mem_sortKeys.mp hx)
    simpa [jsLt] using this

theorem prevKeyOf_congr {K1 K2 : List String} {month : String}
    (h : ∀ x, (x ∈ K1 ∧ x.toList < month.toList) ↔ (x ∈ K2 ∧ x.toList < month.toList)) :
    prevKeyOf K1 month = prevKeyOf K2 month := by
  rcases h1 : prevKeyOf K1 month with _ | k
  · rcases h2 : prevKeyOf K2 month with _ | k2
    · rfl
    · exfalso
      have hc := prevKeyOf_some_char h2
      exact (prevKeyOf_none_iff.mp h1) k2 ((h k2).mpr ⟨hc.1, hc.2.1⟩).1 hc.2.1
  · have hc := prevKeyOf_some_char h1
    have hk2 : k ∈ K2 := ((h k).mp ⟨hc.1, hc.2.1⟩).1
    have hmax2 : ∀ x ∈ K2, x.toList < month.toList → x.toList ≤ k.toList := by
      intro x hx hlt
      exact hc.2.2 x ((h x).mpr ⟨hx, hlt⟩).1 hlt
    rw [prevKeyOf_eq_some hk2 hc.2.1 hmax2]

/-! ### Propagation: the budgets object -/

theorem lookupB_setB_self (B : List (String × List BudgetItem)) (k : String)
    (v : List BudgetItem) : lookupB (setB B k v) k = some v := by
  induction B with
  | nil => simp [setB, lookupB]
  | cons p rest ih =>
    by_cases hp : p.1 = k
    · have hc : (p.1 == k) = true := by simp [hp]
      simp [setB, lookupB, hc]
    · have hc : (p.1 == k) = false := by simp [hp]
      simp only [setB, lookupB] at ih ⊢
      simp [hc, List.find?_cons, ih]

theorem lookupB_setB_ne (B : List (String × List BudgetItem)) (k kk : String)
    (v : List BudgetItem) (h : kk ≠ k) : lookupB (setB B k v) kk = lookupB B kk := by
  induction B with
  | nil =>
    have hkk : (k == kk) = false := by simp [Ne.symm h]
    simp [setB, lookupB, List.find?_cons, hkk]
  | cons p rest ih =>
    by_cases hp : p.1 = k
    · have hcond : (p.1 == k) = true := by simp [hp]
      have hk2 : (k == kk) = false := by simp [Ne.symm h]
      have hp2 : (p.1 == kk) = false := by
        rw [hp]
        exact hk2
      simp [setB, lookupB, hcond, List.find?_cons, hk2, hp2]
    · have hcond : (p.1 == k) = false := by simp [hp]
      by_cases hq : p.1 = kk
      · have hq2 : (p.1 == kk) = true := by simp [hq]
        simp [setB, lookupB, hcond, List.find?_cons, hq2]
      · have hq2 : (p.1 == kk) = false := by simp [hq]
        simp only [setB, lookupB] at ih ⊢
        simp [hcond, List.find?_cons, hq2, ih]

theorem mem_keys_setB {x : String} (B : List (String × List BudgetItem)) (k : String)
    (v : List BudgetItem) :
    x ∈ (setB B k v).map Prod.fst ↔ x ∈ B.map Prod.fst ∨ x = k := by
  induction B with
  | nil => simp [setB]
  | cons p rest ih =>
    by_cases hp : p.1 = k
    · have hc : (p.1 == k) = true := by simp [hp]
      simp [setB, hc, hp]
      tauto
    · have hc : (p.1 == k) = false := by simp [hp]
      simp [setB, hc, ih]
      tauto

theorem setB_setB (B : List (String × List BudgetItem)) (k : String)
    (v w : List BudgetItem) : setB (setB B k v) k w = setB B k w := by
  induction B with
  | nil => simp [setB]
  | cons p rest ih =>
    by_cases hp : p.1 = k
    · have hc : (p.1 == k) = true := by simp [hp]
      simp [setB, hc]
    · have hc : (p.1 == k) = false := by simp [hp]
      simp [setB, hc, ih]

/-! ### Propagation: the copied items -/

theorem copyFresh_length : ∀ (l : List BudgetItem) (n : ℕ), (copyFresh l n).length = l.length := by
  intro l
  induction l with
  | nil => intro n; rfl
  | cons b rest ih => intro n; simp [copyFresh, ih]

theorem copyFresh_map_name :
    ∀ (l : List BudgetItem) (n : ℕ), (copyFresh l n).map BudgetItem.name = l.map BudgetItem.name := by
  intro l
  induction l with
  | nil => intro n; rfl
  | cons b rest ih => intro n; simp [copyFresh, ih]

theorem copyFresh_map_top :
    ∀ (l : List BudgetItem) (n : ℕ), (copyFresh l n).map BudgetItem.top = l.map BudgetItem.top := by
  intro l
  induction l with
  | nil => intro n; rfl
  | cons b rest ih => intro n; simp [copyFresh, ih]

theorem copyFresh_map_plan :
    ∀ (l : List BudgetItem) (n : ℕ), (copyFresh l n).map BudgetItem.plan = l.map BudgetItem.plan := by
  intro l
  induction l with
  | nil => intro n; rfl
  | cons b rest ih => intro n; simp [copyFresh, ih]

theorem copyFresh_id_ge :
    ∀ (l : List BudgetItem) (n : ℕ), ∀ c ∈ copyFresh l n, n ≤ c.id := by
  intro l
  induction l with
  | nil => intro n c hc; simp [copyFresh] at hc
  | cons b rest ih =>
    intro n c hc
    rcases List.mem_cons.mp hc with rfl | hc2
    · exact le_refl _
    · exact le_trans (Nat.le_succ n) (ih (n + 1) c hc2)

/-! ### Propagation: behaviour of one run -/

theorem propagate_of_nonempty {s : AppState} {month : String}
    (hemp : ((lookupB s.budgets month).getD []).isEmpty = false) :
    propagate s month = s := by
  unfold propagate
  simp [hemp]

theorem propagate_of_empty_none {s : AppState} {month : String}
    (hemp : ((lookupB s.budgets month).getD []).isEmpty = true)
    (hprev : prevKeyOf (s.budgets.map Prod.fst) month = none) :
    propagate s month = s := by
  unfold propagate
  rw [hprev]
  simp [hemp]

theorem propagate_of_empty_some {s : AppState} {month k : String}
    (hemp : ((lookupB s.budgets month).getD []).isEmpty = true)
    (hprev : prevKeyOf (s.budgets.map Prod.fst) month = some k) :
    propagate s month =
      { s with
        budgets := setB s.budgets month (copyFresh ((lookupB s.budgets k).getD []) s.nextId),
        nextId := s.nextId + ((lookupB s.budgets k).getD []).length } := by
  unfold propagate
  rw [hprev]
  simp [hemp]

/-- C4.  Propagation is idempotent: running the month-change effect a
second time for the same month leaves the state (and hence the month's
item set) exactly as after the first run — the copy happens at most once
per month. -/
theorem propagate_idem (s : AppState) (month : String) :
    propagate (propagate s month) month = propagate s month := by
  obtain ⟨B, T, St, N⟩ := s
  rcases hemp : ((lookupB B month).getD []).isEmpty with _ | _
  · have h1 : propagate ⟨B, T, St, N⟩ month = ⟨B, T, St, N⟩ := propagate_of_nonempty hemp
    rw [h1]
    exact h1
  · rcases hprev : prevKeyOf (B.map Prod.fst) month with _ | k
    · have h1 : propagate ⟨B, T, St, N⟩ month = ⟨B, T, St, N⟩ :=
        propagate_of_empty_none hemp hprev
      rw [h1]
      exact h1
    · have hchar := prevKeyOf_some_char hprev
      have hkne : k ≠ month := by
        intro hEq
        rw [hEq] at hchar
        exact lt_irrefl _ hchar.2.1
      have h1 := propagate_of_empty_some (s := ⟨B, T, St, N⟩) hemp hprev
      rcases hsrc : (lookupB B k).getD [] with _ | ⟨b0, rest⟩
      · rw [hsrc] at h1
        simp only [copyFresh, List.length_nil, Nat.add_zero] at h1
        rw [h1]
        have hlook1 : lookupB (setB B month []) month = some [] := lookupB_setB_self _ _ _
        have hemp1 : ((lookupB (setB B month []) month).getD []).isEmpty = true := by
          rw [hlook1]
          rfl
        have hkeys : ∀ x, (x ∈ (setB B month []).map Prod.fst ∧ x.toList < month.toList) ↔
            (x ∈ B.map Prod.fst ∧ x.toList < month.toList) := by
          intro x
          rw [mem_keys_setB]
          constructor
          · rintro ⟨hx | rfl, hlt⟩
            · exact ⟨hx, hlt⟩
            · exact absurd hlt (lt_irrefl _)
          · rintro ⟨hx, hlt⟩
            exact ⟨Or.inl hx, hlt⟩
        have hprev1 : prevKeyOf ((setB B month []).map Prod.fst) month = some k := by
          rw [prevKeyOf_congr hkeys, hprev]

        have h2 := propagate_of_empty_some (s := ⟨setB B month [], T, St, N⟩) hemp1 hprev1
        rw [h2]
        have hlk : lookupB (setB B month []) k = lookupB B k := lookupB_setB_ne _ _ _ _ hkne
        simp only [hlk, hsrc, copyFresh, List.length_nil, Nat.add_zero, setB_setB]
      · rw [hsrc] at h1
        rw [h1]
        have hlook1 : lookupB (setB B month (copyFresh (b0 :: rest) N)) month =
            some (copyFresh (b0 :: rest) N) := lookupB_setB_self _ _ _
        have hemp1 : ((lookupB (setB B month (copyFresh (b0 :: rest) N)) month).getD
            []).isEmpty = false := by
          rw [hlook1]
          simp [copyFresh]
        exact propagate_of_nonempty hemp1

/-- C6.  When the requested month has no (or an empty) item list,
propagation selects the greatest stored key strictly below the requested
key in JS string (lexicographic) order and fills the month with copies
of that month's items: same names, top categories and plan amounts in
the same order, but identifiers distinct from every identifier of the
source month (given well-formed identifiers); when no strictly earlier
key exists, the state — in particular the requested month — is left
unchanged. -/
theorem propagate_correct (s : AppState) (month : String)
    (hempty : (lookupB s.budgets month).getD [] = [])
    (hwf : WFids s) :
    (∀ k, prevKeyOf (s.budgets.map Prod.fst) month = some k →
      k ∈ s.budgets.map Prod.fst ∧ k < month ∧
      (∀ x ∈ s.budgets.map Prod.fst, x < month → x ≤ k) ∧
      lookupB (propagate s month).budgets month =
        some (copyFresh ((lookupB s.budgets k).getD []) s.nextId) ∧
      (copyFresh ((lookupB s.budgets k).getD []) s.nextId).map BudgetItem.name =
        ((lookupB s.budgets k).getD []).map BudgetItem.name ∧
      (copyFresh ((lookupB s.budgets k).getD []) s.nextId).map BudgetItem.top =
        ((lookupB s.budgets k).getD []).map BudgetItem.top ∧
      (copyFresh ((lookupB s.budgets k).getD []) s.nextId).map BudgetItem.plan =
        ((lookupB s.budgets k).getD []).map BudgetItem.plan ∧
      (∀ c ∈ copyFresh ((lookupB s.budgets k).getD []) s.nextId,
        ∀ b0 ∈ (lookupB s.budgets k).getD [], c.id ≠ b0.id)) ∧
    (prevKeyOf (s.budgets.map Prod.fst) month = none → propagate s month = s) := by
  have hemp : ((lookupB s.budgets month).getD []).isEmpty = true := by
    rw [hempty]
    rfl
  constructor
  · intro k hprev
    have hchar := prevKeyOf_some_char hprev
    refine ⟨hchar.1, String.lt_iff_toList_lt.mpr hchar.2.1, ?_, ?_,
      copyFresh_map_name _ _, copyFresh_map_top _ _, copyFresh_map_plan _ _, ?_⟩
    · intro x hx hlt
      exact String.le_iff_toList_le.mpr (hchar.2.2 x hx (String.lt_iff_toList_lt.mp hlt))
    · rw [propagate_of_empty_some hemp hprev]
      exact lookupB_setB_self _ _ _
    · intro c hc b0 hb0
      have hge := copyFresh_id_ge _ _ c hc
      rcases hlook : lookupB s.budgets k with _ | l
      · rw [hlook] at hb0
        simp at hb0
      · rw [hlook] at hb0
        simp only [Option.getD_some] at hb0
        rcases Option.map_eq_some'.mp hlook with ⟨p, hfind, hsnd⟩
        have hpmem := List.mem_of_find?_eq_some hfind
        have hlt := hwf p hpmem b0 (by rw [hsnd]; exact hb0)
        omega
  · intro hprev
    exact propagate_of_empty_none hemp hprev

/-- Witness for C6: propagating the empty month 2025-03 of `demoState`
copies the items of 2025-01 (with their names) into it. -/
theorem propagate_correct_wit :
    lookupB (propagate demoState "2025-03").budgets "2025-03" =
      some (copyFresh ((lookupB demoState.budgets "2025-01").getD []) demoState.nextId) ∧
    (copyFresh ((lookupB demoState.budgets "2025-01").getD []) demoState.nextId).map
        BudgetItem.name =
      ((lookupB demoState.budgets "2025-01").getD []).map BudgetItem.name :=
  ⟨((propagate_correct demoState "2025-03" (by decide) (by unfold WFids; decide)).1
      "2025-01" (by decide)).2.2.2.1,
   ((propagate_correct demoState "2025-03" (by decide) (by unfold WFids; decide)).1
      "2025-01" (by decide)).2.2.2.2.1⟩

/-! ### Upsert semantics -/

/-- C7 (amended).  For the current month: when the given id is present
and matches an existing item, exactly that item is overwritten field-wise
in place and the list length is unchanged; when the id is present but
matches nothing, the call leaves the month's list unchanged (no item is
appended); only when the id is absent is a new item appended, with the
fresh identifier `nextId` (distinct from every stored id when the state
is well formed), top category defaulting to Spending and name defaulting
to the placeholder. -/
theorem upsert_semantics (s : AppState) (month : String) (b : ItemPatch) :
    (∀ i j, b.id = some i →
      ((lookupB s.budgets month).getD []).findIdx? (fun x => x.id == i) = some j →
      lookupB (upsertBudgetItem s month b).budgets month =
        some (((lookupB s.budgets month).getD []).set j
          (mergeItem (((lookupB s.budgets month).getD []).getD j default) b)) ∧
      (((lookupB s.budgets month).getD []).set j
        (mergeItem (((lookupB s.budgets month).getD []).getD j default) b)).length =
        ((lookupB s.budgets month).getD []).length) ∧
    (∀ i, b.id = some i →
      ((lookupB s.budgets month).getD []).findIdx? (fun x => x.id == i) = none →
      lookupB (upsertBudgetItem s month b).budgets month =
        some ((lookupB s.budgets month).getD [])) ∧
    (b.id = none →
      lookupB (upsertBudgetItem s month b).budgets month =
        some (((lookupB s.budgets month).getD []) ++
          [{ id := s.nextId, top := b.top.getD TopCategory.spending,
             name := jsOrStr b.name "새 항목", plan := b.plan.getD 0 }]) ∧
      (WFids s → s.nextId ∉ ((lookupB s.budgets month).getD []).map BudgetItem.id)) := by
  refine ⟨?_, ?_, ?_⟩
  · intro i j hid hfind
    simp only [upsertBudgetItem, hid, hfind]
    exact ⟨lookupB_setB_self _ _ _, List.length_set _ _ _⟩
  · intro i hid hfind
    simp only [upsertBudgetItem, hid, hfind]
    exact lookupB_setB_self _ _ _
  · intro hid
    simp only [upsertBudgetItem, hid]
    refine ⟨lookupB_setB_self _ _ _, ?_⟩
    intro hwf hmem
    rcases List.mem_map.mp hmem with ⟨b0, hb0, hbid⟩
    rcases hlook : lookupB s.budgets month with _ | l
    · rw [hlook] at hb0
      simp at hb0
    · rw [hlook] at hb0
      simp only [Option.getD_some] at hb0
      rcases Option.map_eq_some'.mp hlook with ⟨p, hfind, hsnd⟩
      have := hwf p (List.mem_of_find?_eq_some hfind) b0 (by rw [hsnd]; exact hb0)
      omega

/-- C7 counterexample: upserting with the present-but-unmatched id 99
into `demoState` leaves the month's single-item list unchanged and
generates no fresh identifier — no new item is appended, contrary to
the claim's "otherwise a new item is appended". -/
theorem upsert_semantics_cex :
    lookupB (upsertBudgetItem demoState "2025-01" ghostPatch).budgets "2025-01" =
      some [demoItem] ∧
    (upsertBudgetItem demoState "2025-01" ghostPatch).nextId = demoState.nextId ∧
    ((lookupB (upsertBudgetItem demoState "2025-01" ghostPatch).budgets
      "2025-01").getD []).length = 1 := by
  decide

/-- Witness for C7: an id-less upsert into `demoState` appends the new
item with the fresh identifier. -/
theorem upsert_semantics_wit :
    lookupB (upsertBudgetItem demoState "2025-01" addPatch).budgets "2025-01" =
      some (((lookupB demoState.budgets "2025-01").getD []) ++
        [{ id := demoState.nextId, top := addPatch.top.getD TopCategory.spending,
           name := jsOrStr addPatch.name "새 항목", plan := addPatch.plan.getD 0 }]) ∧
    demoState.nextId ∉ ((lookupB demoState.budgets "2025-01").getD []).map BudgetItem.id :=
  ⟨((upsert_semantics demoState "2025-01" addPatch).2.2 rfl).1,
   ((upsert_semantics demoState "2025-01" addPatch).2.2 rfl).2 (by unfold WFids; decide)⟩

/-! ### Frame properties -/

/-- C10.  `upsertBudgetItem` and `deleteBudgetItem` change at most the
item list of the currently selected month: every other month's list, the
transaction list and the settings are untouched; `addTx` and `removeTx`
change at most the transaction list, leaving all budget months and the
settings untouched. -/
theorem frame_ops (s : AppState) (month : String) (b : ItemPatch) (i j : ℕ) (tx : Tx)
    (k : String) (hk : k ≠ month) :
    lookupB (upsertBudgetItem s month b).budgets k = lookupB s.budgets k ∧
    (upsertBudgetItem s month b).txs = s.txs ∧
    (upsertBudgetItem s month b).settings = s.settings ∧
    lookupB (deleteBudgetItem s month i).budgets k = lookupB s.budgets k ∧
    (deleteBudgetItem s month i).txs = s.txs ∧
    (deleteBudgetItem s month i).settings = s.settings ∧
    (addTx s tx).budgets = s.budgets ∧
    (addTx s tx).settings = s.settings ∧
    (removeTx s j).budgets = s.budgets ∧
    (removeTx s j).settings = s.settings := by
  refine ⟨?_, ?_, ?_, lookupB_setB_ne _ _ _ _ hk, rfl, rfl, rfl, rfl, rfl, rfl⟩
  · rcases hid : b.id with _ | i2 <;>
      simp only [upsertBudgetItem, hid] <;>
      exact lookupB_setB_ne _ _ _ _ hk
  · rcases hid : b.id with _ | i2 <;> simp [upsertBudgetItem, hid]
  · rcases hid : b.id with _ | i2 <;> simp [upsertBudgetItem, hid]

/-- Witness for C10 at a concrete state and months. -/
theorem frame_ops_wit :
    lookupB (upsertBudgetItem demoState "2025-01" addPatch).budgets "2024-12" =
      lookupB demoState.budgets "2024-12" :=
  (frame_ops demoState "2025-01" addPatch 0 0 savTx "2024-12" (by decide)).1

/-! ### Settings -/

/-- C8 (amended).  The settings save handler stores any given day
unconditionally (no `ValidationError` path exists); the range 1..31 is
enforced only by the user interface, whose option list contains exactly
the days 1 to 31. -/
theorem saveStartDay_spec (s : AppState) (day : ℕ) :
    (saveStartDay s day).settings.startDay = day ∧
    (saveStartDay s day).settings.startDayTakesEffectNextMonth = true ∧
    (saveStartDay s day).budgets = s.budgets ∧
    (saveStartDay s day).txs = s.txs ∧
    (∀ n : ℕ, n ∈ startDayOptions ↔ 1 ≤ n ∧ n ≤ 31) := by
  refine ⟨rfl, rfl, rfl, rfl, ?_⟩
  intro n
  simp only [startDayOptions, List.mem_map, List.mem_range]
  constructor
  · rintro ⟨i, hi, rfl⟩
    omega
  · intro h
    exact ⟨n - 1, by omega, by omega⟩

/-- C8 counterexample: saving the out-of-range day 99 stores it and
changes the settings instead of failing with a `ValidationError`. -/
theorem saveStartDay_cex :
    (saveStartDay demoState 99).settings.startDay = 99 ∧
    ¬ (saveStartDay demoState 99).settings = demoState.settings ∧
    99 ∉ startDayOptions := by
  decide

/-! ### Category exclusion: counterexample and witness -/

/-- C2 counterexample: in the month 2025-07 (cycle start day 1), a
Savings (저축) transaction over the item 적금 contributes its full
amount to the budget view's per-item actual of the Savings budget item
of the same name — it does appear in a per-budget-item actual. -/
theorem category_exclusion_cex :
    savTx.top ≠ TopCategory.spending ∧
    (mapGetN (actualByBudgetId [savItem]
      (monthTxs [savTx] (startEndOfMonth 2025 7 1))) savItem.id).getD 0 = 50000 := by
  have h7 : daysInMonth 2025 7 = 31 := by decide
  have h8 : rdFirst 2025 8 = rdFirst 2025 7 + 31 := by
    have h := rdFirst_succ 2025 7 (by norm_num) (by norm_num)
    rw [h7] at h
    norm_num at h
    exact h
  have hcond : (decide ((startEndOfMonth 2025 7 1).1 ≤ savTx.date) &&
      decide (savTx.date ≤ (startEndOfMonth 2025 7 1).2)) = true := by
    rw [Bool.and_eq_true, decide_eq_true_eq, decide_eq_true_eq]
    constructor
    · simp only [startEndOfMonth, mkDate, savTx, h7]
      omega
    · have h8b : rdFirst 2025 (7 + 1) = rdFirst 2025 7 + 31 := h8
      simp only [startEndOfMonth, mkDate, savTx, h7]
      omega
  have hin : monthTxs [savTx] (startEndOfMonth 2025 7 1) = [savTx] := by
    unfold monthTxs
    rw [List.filter_singleton]
    rw [hcond]
    rfl
  rw [hin]
  constructor
  · decide
  · decide

/-- Witness for C2: prepending a Savings transaction leaves
`actualByItem` unchanged. -/
theorem category_exclusion_wit :
    actualByItem (savTx :: []) = actualByItem [] :=
  (category_exclusion [demoItem] [] savTx (by decide) (by decide)).1

end BudgetApp
